import Mathlib

/-!
# Verification of `runpod_worker/handler.py`

Shallow embedding of the RunPod serverless image-classification worker.
The script loads a SigLIP model and a label list once at cold start
(`load_model`), then per request (`handler`) decodes a base64 image, runs the
model to obtain one logit per label, applies softmax, and returns the top-5
`{label, score}` pairs with scores rounded to 4 decimal places; any exception
is caught and returned as `{"error": str(e)}`.

Modelling conventions:
* Python floats are modelled as exact rationals `ℚ`.
* `torch.exp` inside `softmax` is an abstract parameter `Env.exp : ℚ → ℚ`
  carrying only the property that matters, positivity (`Real.exp` is
  everywhere positive); since softmax over the reals is surjective onto
  positive probability vectors, every positive `exp` instantiation produces
  probability vectors the real code can produce.
* Fallible steps (dict lookup, base64 decode, `Image.open`, the
  processor/model forward pass) return `Except String α`; a raised Python
  exception is the `.error` branch carrying `str(e)`.
* External opaque objects (the decoded image, the model, the processor) are
  type parameters; their behaviour enters only through `Env`.
* Python's `round(x, 4)` is round-half-to-even at 4 decimal places, modelled
  exactly on `ℚ` by `roundHalfEven`.
-/

namespace RunpodWorker

/-- Python's `round` to an integer: round half to even (banker's rounding),
on exact rationals. -/
def roundHalfEven (q : ℚ) : ℤ :=
  if q - (⌊q⌋ : ℚ) < 1/2 then ⌊q⌋
  else if 1/2 < q - (⌊q⌋ : ℚ) then ⌊q⌋ + 1
  else if ⌊q⌋ % 2 = 0 then ⌊q⌋ else ⌊q⌋ + 1

/-- Python's `round(x, 4)`: round to 4 decimal places, half to even. -/
def round4 (q : ℚ) : ℚ := (roundHalfEven (q * 10000) : ℚ) / 10000

/-- Python's `str.strip()`: drop leading and trailing whitespace (executable
character-list version; Python also strips some non-ASCII Unicode whitespace,
irrelevant here). -/
def pyStrip (s : String) : String :=
  ⟨((s.data.dropWhile Char.isWhitespace).reverse.dropWhile Char.isWhitespace).reverse⟩

/-- Line 33: `labels = [line.strip() for line in f.readlines() if line.strip()]`. -/
def loadLabels (lines : List String) : List String :=
  (lines.filter (fun line => pyStrip line ≠ "")).map pyStrip

/-- Modelled from the spec: the static file `labels.txt` is not part of the
sources under verification (only `handler.py` is); the spec's data model
states the label list is non-empty, which we model as the file containing at
least one line that is non-blank after stripping. -/
def LabelsFileWellFormed (lines : List String) : Prop :=
  ∃ line ∈ lines, pyStrip line ≠ ""

/-- Line 66: `probs = logits_per_image.softmax(dim=1)[0]`, with `exp`
abstracting the exponential used by torch's softmax. -/
def softmax (exp : ℚ → ℚ) (l : List ℚ) : List ℚ :=
  l.map (fun x => exp x / (l.map exp).sum)

/-- Line 69: `probs.argsort(descending=True)`: the indices `0..n-1` sorted so
that the corresponding values are non-increasing. -/
def argsortDesc (l : List ℚ) : List ℕ :=
  List.insertionSort (fun i j => l.getD j 0 ≤ l.getD i 0) (List.range l.length)

/-- Python list indexing `l[i]`, which raises `IndexError` out of range. -/
def listIndex (l : List α) (i : ℕ) : Except String α :=
  if h : i < l.length then .ok (l.get ⟨i, h⟩)
  else .error "IndexError: list index out of range"

/-- The value of `event["input"]` when present: a dict that may or may not
have the `"image_base64"` key. -/
structure EventInput where
  image_base64? : Option String

/-- The request `event`: a dict that may or may not have the `"input"` key. -/
structure Event where
  input? : Option EventInput

/-- One element of the success response: `{"label": ..., "score": ...}`. -/
structure LabelScore where
  label : String
  score : ℚ
deriving DecidableEq, Repr

/-- The handler's return value: a list of results, or `{"error": msg}`. -/
inductive HandlerResult where
  | ok (results : List LabelScore)
  | error (msg : String)
deriving DecidableEq, Repr

/-- The module globals written by `load_model` and read by `handler`
(lines 9–11): `model`, `processor`, `labels`. -/
structure Globals (Mdl Proc : Type) where
  model : Mdl
  processor : Proc
  labels : List String

/-- The external world: the pretrained model/processor loads, base64
decoding, image decoding, the processor + forward pass producing the per-label
logits `logits_per_image[0]`, and the exponential used by softmax.
`exp_pos` records the one fact used about `Real.exp`: positivity. -/
structure Env (Img Mdl Proc : Type) where
  loadPretrained : Mdl
  loadProcessor : Proc
  b64decode : String → Except String (List ℕ)
  imageOpenRGB : List ℕ → Except String Img
  modelLogits : Mdl → Proc → Img → List String → Except String (List ℚ)
  exp : ℚ → ℚ
  exp_pos : ∀ x, 0 < exp x

/-- Lines 46: `event["input"]["image_base64"]`; a missing key raises
`KeyError`. -/
def getImageB64 (event : Event) : Except String String :=
  match event.input? with
  | none => .error "KeyError: input"
  | some input =>
    match input.image_base64? with
    | none => .error "KeyError: image_base64"
    | some s => .ok s

/-- Lines 70–73: the result list comprehension; indexing `labels[idx]` or
`probs[idx]` can raise. -/
def buildResults (labels : List String) (probs : List ℚ) :
    List ℕ → Except String (List LabelScore)
  | [] => .ok []
  | i :: is =>
    match listIndex labels i with
    | .error e => .error e
    | .ok label =>
      match listIndex probs i with
      | .error e => .error e
      | .ok p =>
        match buildResults labels probs is with
        | .error e => .error e
        | .ok rest => .ok (⟨label, round4 p⟩ :: rest)

/-- Lines 45–75: the body of the `try` block. Device moves (lines 59–60) do
not change values and are omitted; the processor call and forward pass
(lines 54–66) are folded into `env.modelLogits`. -/
def tryBody {Img Mdl Proc : Type} (env : Env Img Mdl Proc)
    (g : Globals Mdl Proc) (event : Event) : Except String (List LabelScore) :=
  match getImageB64 event with
  | .error e => .error e
  | .ok image_base64 =>
    match env.b64decode image_base64 with
    | .error e => .error e
    | .ok image_bytes =>
      match env.imageOpenRGB image_bytes with
      | .error e => .error e
      | .ok image =>
        let text_inputs := g.labels.map (fun label => "a photo of " ++ label)
        match env.modelLogits g.model g.processor image text_inputs with
        | .error e => .error e
        | .ok logits =>
          let probs := softmax env.exp logits
          let top5_indices := (argsortDesc probs).take 5
          buildResults g.labels probs top5_indices

/-- Lines 38–79: `handler(event)`; the `except` clause returns
`{"error": str(e)}`. -/
def handler {Img Mdl Proc : Type} (env : Env Img Mdl Proc)
    (g : Globals Mdl Proc) (event : Event) : HandlerResult :=
  match tryBody env g event with
  | .ok results => .ok results
  | .error e => .error e

/-- `handler` as a transformer of the module globals: the body contains no
`global` statement and no assignment to `model`, `processor` or `labels`, so
the globals pass through unchanged. -/
def handlerSt {Img Mdl Proc : Type} (env : Env Img Mdl Proc)
    (g : Globals Mdl Proc) (event : Event) : Globals Mdl Proc × HandlerResult :=
  (g, handler env g event)

/-- Lines 14–35: `load_model()`, run once at line 84: sets the three globals
from the pretrained checkpoint and the contents of `labels.txt`. -/
def coldStart {Img Mdl Proc : Type} (env : Env Img Mdl Proc)
    (fileLines : List String) : Globals Mdl Proc :=
  { model := env.loadPretrained
    processor := env.loadProcessor
    labels := loadLabels fileLines }

/-- The process lifetime after cold start: the host loop feeds `handler` a
sequence of events, threading the globals. -/
def runEvents {Img Mdl Proc : Type} (env : Env Img Mdl Proc)
    (g : Globals Mdl Proc) (events : List Event) :
    Globals Mdl Proc × List HandlerResult :=
  match events with
  | [] => (g, [])
  | ev :: evs =>
    let st := handlerSt env g ev
    let rest := runEvents env st.1 evs
    (rest.1, st.2 :: rest.2)

/-! ## Helper lemmas -/

theorem floor_le_roundHalfEven (q : ℚ) : ⌊q⌋ ≤ roundHalfEven q := by
  unfold roundHalfEven
  split_ifs <;> omega

theorem roundHalfEven_le_floor_add_one (q : ℚ) : roundHalfEven q ≤ ⌊q⌋ + 1 := by
  unfold roundHalfEven
  split_ifs <;> omega

theorem roundHalfEven_le (q : ℚ) : (roundHalfEven q : ℚ) ≤ q + 1/2 := by
  have h1 : (⌊q⌋ : ℚ) ≤ q := Int.floor_le q
  have h2 : q < ⌊q⌋ + 1 := Int.lt_floor_add_one q
  unfold roundHalfEven
  split_ifs <;> push_cast <;> linarith

theorem le_roundHalfEven (q : ℚ) : q - 1/2 ≤ (roundHalfEven q : ℚ) := by
  have h1 : (⌊q⌋ : ℚ) ≤ q := Int.floor_le q
  have h2 : q < ⌊q⌋ + 1 := Int.lt_floor_add_one q
  unfold roundHalfEven
  split_ifs <;> push_cast <;> linarith

theorem roundHalfEven_intCast (n : ℤ) : roundHalfEven (n : ℚ) = n := by
  unfold roundHalfEven
  rw [Int.floor_intCast]
  split_ifs <;> simp_all

theorem roundHalfEven_mono {a b : ℚ} (hab : a ≤ b) :
    roundHalfEven a ≤ roundHalfEven b := by
  have hfab : ⌊a⌋ ≤ ⌊b⌋ := Int.floor_le_floor hab
  rcases lt_or_eq_of_le hfab with hlt | heq
  · calc roundHalfEven a ≤ ⌊a⌋ + 1 := roundHalfEven_le_floor_add_one a
      _ ≤ ⌊b⌋ := by omega
      _ ≤ roundHalfEven b := floor_le_roundHalfEven b
  · have hc : ((⌊a⌋ : ℤ) : ℚ) = ((⌊b⌋ : ℤ) : ℚ) := by exact_mod_cast heq
    unfold roundHalfEven
    split_ifs <;> try omega
    all_goals (exfalso; linarith)

theorem roundHalfEven_nonneg {q : ℚ} (h : 0 ≤ q) : 0 ≤ roundHalfEven q := by
  have := roundHalfEven_mono h
  rwa [show (0:ℚ) = ((0:ℤ):ℚ) by norm_num, roundHalfEven_intCast] at this

theorem round4_mono {a b : ℚ} (hab : a ≤ b) : round4 a ≤ round4 b := by
  unfold round4
  have h : roundHalfEven (a * 10000) ≤ roundHalfEven (b * 10000) :=
    roundHalfEven_mono (by linarith)
  have h' : (roundHalfEven (a * 10000) : ℚ) ≤ (roundHalfEven (b * 10000) : ℚ) := by
    exact_mod_cast h
  linarith

theorem round4_nonneg {q : ℚ} (h : 0 ≤ q) : 0 ≤ round4 q := by
  unfold round4
  have h' : (0:ℤ) ≤ roundHalfEven (q * 10000) := roundHalfEven_nonneg (by linarith)
  have : (0:ℚ) ≤ (roundHalfEven (q * 10000) : ℚ) := by exact_mod_cast h'
  linarith

theorem round4_le_one {q : ℚ} (h : q ≤ 1) : round4 q ≤ 1 := by
  unfold round4
  have h1 : roundHalfEven (q * 10000) ≤ roundHalfEven ((10000 : ℤ) : ℚ) :=
    roundHalfEven_mono (by push_cast; linarith)
  rw [roundHalfEven_intCast] at h1
  have : (roundHalfEven (q * 10000) : ℚ) ≤ 10000 := by exact_mod_cast h1
  linarith

theorem round4_le_add (q : ℚ) : round4 q ≤ q + 1/20000 := by
  unfold round4
  have := roundHalfEven_le (q * 10000)
  linarith

theorem softmax_length (exp : ℚ → ℚ) (l : List ℚ) :
    (softmax exp l).length = l.length := by
  simp [softmax]

theorem sum_map_exp_pos (exp : ℚ → ℚ) (hpos : ∀ x, 0 < exp x)
    {l : List ℚ} (hne : l ≠ []) : 0 < (l.map exp).sum := by
  cases l with
  | nil => exact absurd rfl hne
  | cons x xs =>
    have h1 : 0 < exp x := hpos x
    have h2 : 0 ≤ (xs.map exp).sum :=
      List.sum_nonneg (by
        intro a ha
        obtain ⟨y, _, rfl⟩ := List.mem_map.mp ha
        exact le_of_lt (hpos y))
    simp only [List.map_cons, List.sum_cons]
    linarith

theorem softmax_nonneg (exp : ℚ → ℚ) (hpos : ∀ x, 0 < exp x)
    {l : List ℚ} {p : ℚ} (hp : p ∈ softmax exp l) : 0 ≤ p := by
  obtain ⟨x, hx, rfl⟩ := List.mem_map.mp hp
  have hne : l ≠ [] := List.ne_nil_of_mem hx
  exact div_nonneg (le_of_lt (hpos x)) (le_of_lt (sum_map_exp_pos exp hpos hne))

theorem softmax_le_one (exp : ℚ → ℚ) (hpos : ∀ x, 0 < exp x)
    {l : List ℚ} {p : ℚ} (hp : p ∈ softmax exp l) : p ≤ 1 := by
  obtain ⟨x, hx, rfl⟩ := List.mem_map.mp hp
  have hne : l ≠ [] := List.ne_nil_of_mem hx
  have hS : 0 < (l.map exp).sum := sum_map_exp_pos exp hpos hne
  have hmem : exp x ∈ l.map exp := List.mem_map.mpr ⟨x, hx, rfl⟩
  have hle : exp x ≤ (l.map exp).sum :=
    List.single_le_sum (fun a ha => by
      obtain ⟨y, _, rfl⟩ := List.mem_map.mp ha
      exact le_of_lt (hpos y)) _ hmem
  exact div_le_one_of_le₀ hle (le_of_lt hS)

theorem softmax_sum (exp : ℚ → ℚ) (hpos : ∀ x, 0 < exp x)
    {l : List ℚ} (hne : l ≠ []) : (softmax exp l).sum = 1 := by
  have hS : 0 < (l.map exp).sum := sum_map_exp_pos exp hpos hne
  unfold softmax
  have : (List.map (fun x => exp x / (l.map exp).sum) l).sum
      = (List.map (fun x => exp x * ((l.map exp).sum)⁻¹) l).sum := by
    simp only [div_eq_mul_inv]
  rw [this, List.sum_map_mul_right]
  exact mul_inv_cancel₀ (ne_of_gt hS)

theorem argsortDesc_perm (l : List ℚ) :
    List.Perm (argsortDesc l) (List.range l.length) :=
  List.perm_insertionSort _ _

theorem argsortDesc_sorted (l : List ℚ) :
    (argsortDesc l).Sorted (fun i j => l.getD j 0 ≤ l.getD i 0) := by
  haveI : IsTotal ℕ (fun i j => l.getD j 0 ≤ l.getD i 0) :=
    ⟨fun i j => le_total (l.getD j 0) (l.getD i 0)⟩
  haveI : IsTrans ℕ (fun i j => l.getD j 0 ≤ l.getD i 0) :=
    ⟨fun _ _ _ h1 h2 => le_trans h2 h1⟩
  exact List.sorted_insertionSort _ _

theorem mem_argsortDesc {l : List ℚ} {i : ℕ} (h : i ∈ argsortDesc l) :
    i < l.length :=
  List.mem_range.mp ((argsortDesc_perm l).mem_iff.mp h)

theorem listIndex_ok {l : List α} {i : ℕ} (h : i < l.length) (d : α) :
    listIndex l i = .ok (l.getD i d) := by
  unfold listIndex
  rw [dif_pos h]
  congr 1
  rw [List.getD_eq_getElem l d h, List.get_eq_getElem]

theorem listIndex_ok_elim {l : List α} {i : ℕ} {v : α}
    (h : listIndex l i = .ok v) : i < l.length := by
  unfold listIndex at h
  by_cases hb : i < l.length
  · exact hb
  · rw [dif_neg hb] at h; exact absurd h (by simp)

theorem buildResults_ok {labels : List String} {probs : List ℚ} {idxs : List ℕ}
    (hb : ∀ i ∈ idxs, i < labels.length ∧ i < probs.length) :
    buildResults labels probs idxs =
      .ok (idxs.map fun i => ⟨labels.getD i "", round4 (probs.getD i 0)⟩) := by
  induction idxs with
  | nil => rfl
  | cons i is ih =>
    have hi := hb i (by simp)
    rw [buildResults, listIndex_ok hi.1 "", listIndex_ok hi.2 0,
      ih (fun j hj => hb j (by simp [hj]))]
    rfl

theorem buildResults_ok_elim {labels : List String} {probs : List ℚ}
    {idxs : List ℕ} {ys : List LabelScore}
    (h : buildResults labels probs idxs = .ok ys) :
    ys = (idxs.map fun i => ⟨labels.getD i "", round4 (probs.getD i 0)⟩) ∧
      ∀ i ∈ idxs, i < labels.length ∧ i < probs.length := by
  induction idxs generalizing ys with
  | nil =>
    simp only [buildResults] at h
    cases h
    exact ⟨rfl, by simp⟩
  | cons i is ih =>
    rw [buildResults] at h
    cases hl : listIndex labels i with
    | error e => rw [hl] at h; exact absurd h (by simp)
    | ok label =>
      cases hp : listIndex probs i with
      | error e => rw [hl, hp] at h; exact absurd h (by simp)
      | ok p =>
        cases hr : buildResults labels probs is with
        | error e => rw [hl, hp, hr] at h; exact absurd h (by simp)
        | ok rest =>
          rw [hl, hp, hr] at h
          cases h
          obtain ⟨hrest, hbs⟩ := ih hr
          have hil : i < labels.length := listIndex_ok_elim hl
          have hip : i < probs.length := listIndex_ok_elim hp
          constructor
          · have h1 : label = labels.getD i "" := by
              rw [listIndex_ok hil ""] at hl
              cases hl; rfl
            have h2 : p = probs.getD i 0 := by
              rw [listIndex_ok hip 0] at hp
              cases hp; rfl
            simp [h1, h2, hrest]
          · intro j hj
            rcases List.mem_cons.mp hj with rfl | hj'
            · exact ⟨hil, hip⟩
            · exact hbs j hj'

theorem tryBody_eq {Img Mdl Proc : Type} (env : Env Img Mdl Proc)
    (g : Globals Mdl Proc) (ev : Event) {s : String} {bytes : List ℕ}
    {img : Img} {logits : List ℚ}
    (hs : getImageB64 ev = .ok s) (hb : env.b64decode s = .ok bytes)
    (hi : env.imageOpenRGB bytes = .ok img)
    (hm : env.modelLogits g.model g.processor img
      (g.labels.map fun label => "a photo of " ++ label) = .ok logits) :
    tryBody env g ev = buildResults g.labels (softmax env.exp logits)
      ((argsortDesc (softmax env.exp logits)).take 5) := by
  unfold tryBody
  simp only [hs, hb, hi, hm]

theorem tryBody_ok_elim {Img Mdl Proc : Type} {env : Env Img Mdl Proc}
    {g : Globals Mdl Proc} {ev : Event} {results : List LabelScore}
    (h : tryBody env g ev = .ok results) :
    ∃ (s : String) (bytes : List ℕ) (img : Img) (logits : List ℚ),
      getImageB64 ev = .ok s ∧
      env.b64decode s = .ok bytes ∧
      env.imageOpenRGB bytes = .ok img ∧
      env.modelLogits g.model g.processor img
        (g.labels.map fun label => "a photo of " ++ label) = .ok logits ∧
      buildResults g.labels (softmax env.exp logits)
        ((argsortDesc (softmax env.exp logits)).take 5) = .ok results := by
  unfold tryBody at h
  cases hs : getImageB64 ev with
  | error e => simp only [hs] at h; exact absurd h (by simp)
  | ok s =>
    simp only [hs] at h
    cases hb : env.b64decode s with
    | error e => simp only [hb] at h; exact absurd h (by simp)
    | ok bytes =>
      simp only [hb] at h
      cases hi : env.imageOpenRGB bytes with
      | error e => simp only [hi] at h; exact absurd h (by simp)
      | ok img =>
        simp only [hi] at h
        cases hm : env.modelLogits g.model g.processor img
            (g.labels.map fun label => "a photo of " ++ label) with
        | error e => simp only [hm] at h; exact absurd h (by simp)
        | ok logits =>
          simp only [hm] at h
          exact ⟨s, bytes, img, logits, rfl, hb, hi, hm, h⟩

theorem handler_ok_iff {Img Mdl Proc : Type} {env : Env Img Mdl Proc}
    {g : Globals Mdl Proc} {ev : Event} {results : List LabelScore} :
    handler env g ev = .ok results ↔ tryBody env g ev = .ok results := by
  unfold handler
  cases ht : tryBody env g ev <;> simp

theorem handler_error_iff {Img Mdl Proc : Type} {env : Env Img Mdl Proc}
    {g : Globals Mdl Proc} {ev : Event} {msg : String} :
    handler env g ev = .error msg ↔ tryBody env g ev = .error msg := by
  unfold handler
  cases ht : tryBody env g ev <;> simp

/-! ## Claim theorems and witnesses -/

theorem map_getD_range (l : List ℚ) :
    (List.range l.length).map (fun i => l.getD i 0) = l := by
  apply List.ext_getElem
  · simp
  · intro i h1 h2
    simp only [List.getElem_map, List.getElem_range]
    rw [List.getD_eq_getElem l 0 h2]

theorem runEvents_fst {Img Mdl Proc : Type} (env : Env Img Mdl Proc)
    (g : Globals Mdl Proc) (events : List Event) :
    (runEvents env g events).1 = g := by
  induction events with
  | nil => rfl
  | cons ev evs ih => simp only [runEvents, handlerSt]; exact ih

/-- C1: on every successful invocation, the returned sequence is obtained by
sorting the indices of the softmax probabilities in descending order of
probability, keeping the first 5, and positionally indexing the global label
list at those indices. -/
theorem handler_top5_selection {Img Mdl Proc : Type} (env : Env Img Mdl Proc)
    (g : Globals Mdl Proc) (ev : Event) (s : String) (bytes : List ℕ)
    (img : Img) (logits : List ℚ)
    (hs : getImageB64 ev = .ok s) (hb : env.b64decode s = .ok bytes)
    (hi : env.imageOpenRGB bytes = .ok img)
    (hm : env.modelLogits g.model g.processor img
      (g.labels.map fun label => "a photo of " ++ label) = .ok logits)
    (hlen : logits.length = g.labels.length) :
    ∃ order : List ℕ,
      List.Perm order (List.range (softmax env.exp logits).length) ∧
      order.Sorted (fun i j =>
        (softmax env.exp logits).getD j 0 ≤ (softmax env.exp logits).getD i 0) ∧
      handler env g ev = .ok ((order.take 5).map fun i =>
        ⟨g.labels.getD i "", round4 ((softmax env.exp logits).getD i 0)⟩) := by
  refine ⟨argsortDesc (softmax env.exp logits), argsortDesc_perm _,
    argsortDesc_sorted _, ?_⟩
  have hbounds : ∀ i ∈ (argsortDesc (softmax env.exp logits)).take 5,
      i < g.labels.length ∧ i < (softmax env.exp logits).length := by
    intro i hmem
    have hlt := mem_argsortDesc (List.mem_of_mem_take hmem)
    rw [softmax_length] at hlt
    refine ⟨by omega, ?_⟩
    rw [softmax_length]; exact hlt
  have ht := tryBody_eq env g ev hs hb hi hm
  unfold handler
  rw [ht, buildResults_ok hbounds]

/-- C2: a successful invocation returns at most 5 results. -/
theorem handler_output_length_le_five {Img Mdl Proc : Type}
    {env : Env Img Mdl Proc} {g : Globals Mdl Proc} {ev : Event}
    {results : List LabelScore} (h : handler env g ev = .ok results) :
    results.length ≤ 5 := by
  obtain ⟨s, bytes, img, logits, hs, hb, hi, hm, hbuild⟩ :=
    tryBody_ok_elim (handler_ok_iff.mp h)
  obtain ⟨heq, -⟩ := buildResults_ok_elim hbuild
  rw [heq, List.length_map, List.length_take]
  exact le_trans (min_le_left _ _) (le_refl 5)

/-- C3: on every successful invocation the returned scores, as returned
(i.e. after rounding), are in non-increasing order. -/
theorem handler_scores_sorted_desc {Img Mdl Proc : Type}
    {env : Env Img Mdl Proc} {g : Globals Mdl Proc} {ev : Event}
    {results : List LabelScore} (h : handler env g ev = .ok results) :
    results.Pairwise (fun a b => b.score ≤ a.score) := by
  obtain ⟨s, bytes, img, logits, hs, hb, hi, hm, hbuild⟩ :=
    tryBody_ok_elim (handler_ok_iff.mp h)
  obtain ⟨heq, -⟩ := buildResults_ok_elim hbuild
  subst heq
  have hsorted : ((argsortDesc (softmax env.exp logits)).take 5).Pairwise
      (fun i j => (softmax env.exp logits).getD j 0 ≤
        (softmax env.exp logits).getD i 0) :=
    List.Pairwise.sublist (List.take_sublist 5 _) (argsortDesc_sorted (softmax env.exp logits))
  exact hsorted.map _ (fun i j hij => round4_mono hij)

/-- C4: on every successful invocation every returned score lies in `[0, 1]`. -/
theorem handler_scores_in_unit_interval {Img Mdl Proc : Type}
    {env : Env Img Mdl Proc} {g : Globals Mdl Proc} {ev : Event}
    {results : List LabelScore} (h : handler env g ev = .ok results) :
    ∀ r ∈ results, 0 ≤ r.score ∧ r.score ≤ 1 := by
  obtain ⟨s, bytes, img, logits, hs, hb, hi, hm, hbuild⟩ :=
    tryBody_ok_elim (handler_ok_iff.mp h)
  obtain ⟨heq, hbd⟩ := buildResults_ok_elim hbuild
  subst heq
  intro r hr
  obtain ⟨i, hi', rfl⟩ := List.mem_map.mp hr
  have hip : i < (softmax env.exp logits).length := (hbd i hi').2
  have hpmem : (softmax env.exp logits).getD i 0 ∈ softmax env.exp logits := by
    rw [List.getD_eq_getElem _ 0 hip]
    exact List.getElem_mem hip
  exact ⟨round4_nonneg (softmax_nonneg env.exp env.exp_pos hpmem),
    round4_le_one (softmax_le_one env.exp env.exp_pos hpmem)⟩

/-- C5 (amended): on every successful invocation the sum of the returned
(rounded) scores is at most `1 + 5 * (1/20000) = 1.00025`: the raw softmax
probabilities of the selected indices sum to at most 1, and each of the at
most 5 rounded scores exceeds its raw probability by at most `0.00005`. -/
theorem handler_scores_sum_le_one_plus_rounding {Img Mdl Proc : Type}
    {env : Env Img Mdl Proc} {g : Globals Mdl Proc} {ev : Event}
    {results : List LabelScore} (h : handler env g ev = .ok results) :
    (results.map LabelScore.score).sum ≤ 1 + 1/4000 := by
  obtain ⟨s, bytes, img, logits, hs, hb, hi, hm, hbuild⟩ :=
    tryBody_ok_elim (handler_ok_iff.mp h)
  obtain ⟨heq, hbd⟩ := buildResults_ok_elim hbuild
  subst heq
  set probs := softmax env.exp logits with hprobs
  set idxs := (argsortDesc probs).take 5 with hidxs
  have hnn : ∀ p ∈ probs, 0 ≤ p := fun p hp => softmax_nonneg env.exp env.exp_pos hp
  -- the raw probabilities at the selected indices sum to at most probs.sum
  have hsub : (idxs.map fun i => probs.getD i 0).Sublist
      ((argsortDesc probs).map fun i => probs.getD i 0) :=
    (List.take_sublist 5 _).map _
  have hperm : List.Perm ((argsortDesc probs).map fun i => probs.getD i 0)
      ((List.range probs.length).map fun i => probs.getD i 0) :=
    (argsortDesc_perm probs).map _
  have hfullsum : ((argsortDesc probs).map fun i => probs.getD i 0).sum
      = probs.sum := by
    rw [hperm.sum_eq, map_getD_range]
  have hnn' : ∀ p ∈ (argsortDesc probs).map fun i => probs.getD i 0, 0 ≤ p := by
    intro p hp
    obtain ⟨i, hi', rfl⟩ := List.mem_map.mp hp
    have hip : i < probs.length := mem_argsortDesc hi'
    rw [List.getD_eq_getElem _ 0 hip]
    exact hnn _ (List.getElem_mem hip)
  have hsel : (idxs.map fun i => probs.getD i 0).sum ≤ probs.sum := by
    rw [← hfullsum]
    exact hsub.sum_le_sum hnn'
  have hprobs_sum : probs.sum ≤ 1 := by
    rcases eq_or_ne logits [] with rfl | hne
    · simp [hprobs, softmax]
    · rw [hprobs, softmax_sum env.exp env.exp_pos hne]
  -- each rounded score exceeds its probability by at most 1/20000
  have hround : (idxs.map fun i =>
        (⟨g.labels.getD i "", round4 (probs.getD i 0)⟩ : LabelScore)).map
          LabelScore.score
      = idxs.map fun i => round4 (probs.getD i 0) := by
    rw [List.map_map]; rfl
  rw [hround]
  have hstep : (idxs.map fun i => round4 (probs.getD i 0)).sum
      ≤ (idxs.map fun i => probs.getD i 0 + 1/20000).sum :=
    List.sum_le_sum (fun i _ => round4_le_add _)
  have hsplit : (idxs.map fun i => probs.getD i 0 + 1/20000).sum
      = (idxs.map fun i => probs.getD i 0).sum + idxs.length * (1/20000) := by
    induction idxs with
    | nil => simp
    | cons j js ih => simp [ih]; ring
  have hlen5 : idxs.length ≤ 5 := by
    rw [hidxs, List.length_take]
    exact min_le_left _ _
  have hlenq : (idxs.length : ℚ) * (1/20000) ≤ 5 * (1/20000) := by
    have : (idxs.length : ℚ) ≤ 5 := by exact_mod_cast hlen5
    linarith
  calc (idxs.map fun i => round4 (probs.getD i 0)).sum
      ≤ (idxs.map fun i => probs.getD i 0).sum + idxs.length * (1/20000) := by
        rw [← hsplit]; exact hstep
    _ ≤ 1 + 5 * (1/20000) := by
        have := le_trans hsel hprobs_sum
        linarith
    _ = 1 + 1/4000 := by norm_num

/-- A concrete external world used to exercise the handler: three labels,
logits `[2, 1, 1]`, and an exponential stand-in that is the identity on
positive inputs (softmax over the reals realises exactly the positive
normalised vectors, so every output below is reachable by the real code). -/
def wEnv : Env Unit Unit Unit where
  loadPretrained := ()
  loadProcessor := ()
  b64decode := fun _ => .ok [137, 80]
  imageOpenRGB := fun _ => .ok ()
  modelLogits := fun _ _ _ _ => .ok [2, 1, 1]
  exp := fun x => if x ≤ 0 then 1 else x
  exp_pos := fun x => by
    dsimp only
    by_cases h : x ≤ 0
    · rw [if_pos h]; norm_num
    · rw [if_neg h]; exact lt_of_not_le h

def wG : Globals Unit Unit := ⟨(), (), ["cat", "dog", "bird"]⟩

def wEvent : Event := ⟨some ⟨some "aGVsbG8="⟩⟩

theorem wHandlerEval : handler wEnv wG wEvent =
    .ok [⟨"cat", 1/2⟩, ⟨"dog", 1/4⟩, ⟨"bird", 1/4⟩] := by
  norm_num [handler, tryBody, getImageB64, wEnv, wG, wEvent, softmax, argsortDesc,
    List.insertionSort, List.orderedInsert, List.range, List.range.loop,
    buildResults, listIndex, round4, roundHalfEven]

/-- The environment witnessing that rounding can push the returned sum of
scores above 1: five labels whose softmax probabilities are
`0.20006, 0.20006, 0.20006, 0.20006, 0.19976` (sum exactly 1), each of which
rounds up at the fourth decimal. -/
def cxEnv : Env Unit Unit Unit where
  loadPretrained := ()
  loadProcessor := ()
  b64decode := fun _ => .ok [137, 80]
  imageOpenRGB := fun _ => .ok ()
  modelLogits := fun _ _ _ _ =>
    .ok [20006/100000, 20006/100000, 20006/100000, 20006/100000, 19976/100000]
  exp := fun x => if x ≤ 0 then 1 else x
  exp_pos := fun x => by
    dsimp only
    by_cases h : x ≤ 0
    · rw [if_pos h]; norm_num
    · rw [if_neg h]; exact lt_of_not_le h

def cxG : Globals Unit Unit := ⟨(), (), ["a", "b", "c", "d", "e"]⟩

/-- C5 (counterexample): an invocation of `handler` that succeeds and returns
scores summing to `1.0002 > 1`. The five returned scores are each the softmax
probability rounded to 4 decimal places, and the rounding pushes the sum past
1 even though the raw probabilities sum to exactly 1. -/
theorem handler_sum_of_scores_can_exceed_one :
    ∃ results, handler cxEnv cxG wEvent = HandlerResult.ok results ∧
      ¬ ((results.map LabelScore.score).sum ≤ 1) := by
  refine ⟨[⟨"a", 2001/10000⟩, ⟨"b", 2001/10000⟩, ⟨"c", 2001/10000⟩,
    ⟨"d", 2001/10000⟩, ⟨"e", 999/5000⟩], ?_, by norm_num⟩
  norm_num [handler, tryBody, getImageB64, cxEnv, cxG, wEvent, softmax, argsortDesc,
    List.insertionSort, List.orderedInsert, List.range, List.range.loop,
    buildResults, listIndex, round4, roundHalfEven]

/-- C6: every failure inside the body (missing request field, bad base64,
undecodable image, model error, bad indexing) is caught and surfaces as the
single error object `{"error": str(e)}` with the exception's message; the
handler always returns (either results or an error object), and a successful
body never produces an error object. -/
theorem handler_catches_all_errors {Img Mdl Proc : Type}
    (env : Env Img Mdl Proc) (g : Globals Mdl Proc) (ev : Event) :
    (∀ msg, tryBody env g ev = .error msg → handler env g ev = .error msg) ∧
    (∀ results, tryBody env g ev = .ok results → handler env g ev = .ok results) ∧
    ((∃ results, handler env g ev = .ok results) ∨
      (∃ msg, handler env g ev = .error msg)) ∧
    (ev.input? = none → ∃ msg, handler env g ev = .error msg) := by
  refine ⟨?_, ?_, ?_, ?_⟩
  · intro msg hmsg
    unfold handler
    rw [hmsg]
  · intro results hres
    unfold handler
    rw [hres]
  · cases ht : tryBody env g ev with
    | ok results => exact Or.inl ⟨results, by unfold handler; rw [ht]⟩
    | error msg => exact Or.inr ⟨msg, by unfold handler; rw [ht]⟩
  · intro hnone
    refine ⟨"KeyError: input", ?_⟩
    unfold handler tryBody getImageB64
    rw [hnone]

/-- C7: a request that is a one-field object holding a base64 string which
decodes to a valid image is accepted: provided the external model evaluates
on it (returning one logit per label), the handler returns results rather
than an error object. -/
theorem handler_accepts_valid_request {Img Mdl Proc : Type}
    (env : Env Img Mdl Proc) (g : Globals Mdl Proc) (s : String)
    (bytes : List ℕ) (img : Img) (logits : List ℚ)
    (hb : env.b64decode s = .ok bytes)
    (hi : env.imageOpenRGB bytes = .ok img)
    (hm : env.modelLogits g.model g.processor img
      (g.labels.map fun label => "a photo of " ++ label) = .ok logits)
    (hlen : logits.length = g.labels.length) :
    ∃ results, handler env g ⟨some ⟨some s⟩⟩ = .ok results := by
  have hs : getImageB64 ⟨some ⟨some s⟩⟩ = .ok s := rfl
  have hbounds : ∀ i ∈ (argsortDesc (softmax env.exp logits)).take 5,
      i < g.labels.length ∧ i < (softmax env.exp logits).length := by
    intro i hmem
    have hlt := mem_argsortDesc (List.mem_of_mem_take hmem)
    rw [softmax_length] at hlt
    refine ⟨by omega, ?_⟩
    rw [softmax_length]; exact hlt
  refine ⟨((argsortDesc (softmax env.exp logits)).take 5).map (fun i =>
    ⟨g.labels.getD i "", round4 ((softmax env.exp logits).getD i 0)⟩), ?_⟩
  unfold handler
  rw [tryBody_eq env g _ hs hb hi hm, buildResults_ok hbounds]

/-- C8: the globals (`model`, `processor`, `labels`) are written once by
`load_model` at cold start and are never modified by any invocation of
`handler`, successful or failing: after any sequence of requests they are
exactly the cold-start values. -/
theorem globals_unchanged_by_requests {Img Mdl Proc : Type}
    (env : Env Img Mdl Proc) (fileLines : List String) (events : List Event) :
    (runEvents env (coldStart env fileLines) events).1 = coldStart env fileLines :=
  runEvents_fst env _ events

/-- C9: if the labels file has at least one non-blank line (which the spec
guarantees for the repository's static `labels.txt`), then the label list
set by `load_model` is non-empty, and it stays non-empty before every
invocation of `handler`. -/
theorem labels_nonempty {Img Mdl Proc : Type} (env : Env Img Mdl Proc)
    (fileLines : List String) (events : List Event)
    (h : LabelsFileWellFormed fileLines) :
    loadLabels fileLines ≠ [] ∧
      ((runEvents env (coldStart env fileLines) events).1).labels ≠ [] := by
  obtain ⟨line, hmem, hne⟩ := h
  have hmem' : pyStrip line ∈ loadLabels fileLines := by
    unfold loadLabels
    exact List.mem_map.mpr ⟨line,
      List.mem_filter.mpr ⟨hmem, decide_eq_true hne⟩, rfl⟩
  have hcore : loadLabels fileLines ≠ [] := List.ne_nil_of_mem hmem'
  refine ⟨hcore, ?_⟩
  rw [runEvents_fst]
  exact hcore

/-- C10: every returned score is the softmax probability rounded to 4 decimal
places, not the raw probability; and the rounding is lossy: two distinct
probabilities less than `0.00005` apart can round to the same score. -/
theorem handler_scores_are_rounded_probs {Img Mdl Proc : Type}
    {env : Env Img Mdl Proc} {g : Globals Mdl Proc} {ev : Event}
    {results : List LabelScore} (h : handler env g ev = .ok results) :
    (∃ (s : String) (bytes : List ℕ) (img : Img) (logits : List ℚ),
      getImageB64 ev = .ok s ∧
      env.b64decode s = .ok bytes ∧
      env.imageOpenRGB bytes = .ok img ∧
      env.modelLogits g.model g.processor img
        (g.labels.map fun label => "a photo of " ++ label) = .ok logits ∧
      ∀ r ∈ results, ∃ p ∈ softmax env.exp logits, r.score = round4 p) ∧
    (∃ p q : ℚ, p ≠ q ∧ |p - q| < 1/20000 ∧ round4 p = round4 q) := by
  constructor
  · obtain ⟨s, bytes, img, logits, hs, hb, hi, hm, hbuild⟩ :=
      tryBody_ok_elim (handler_ok_iff.mp h)
    obtain ⟨heq, hbd⟩ := buildResults_ok_elim hbuild
    subst heq
    refine ⟨s, bytes, img, logits, hs, hb, hi, hm, ?_⟩
    intro r hr
    obtain ⟨i, hi', rfl⟩ := List.mem_map.mp hr
    have hip : i < (softmax env.exp logits).length := (hbd i hi').2
    refine ⟨(softmax env.exp logits).getD i 0, ?_, rfl⟩
    rw [List.getD_eq_getElem _ 0 hip]
    exact List.getElem_mem hip
  · refine ⟨0, 1/100000, by norm_num, ?_, ?_⟩
    · rw [abs_sub_comm, sub_zero, abs_of_nonneg (by norm_num)]
      norm_num
    · norm_num [round4, roundHalfEven]

/-- Witness for C1 at the concrete world `wEnv`/`wG`/`wEvent`. -/
theorem handler_top5_selection_witness :
    ∃ order : List ℕ,
      List.Perm order (List.range (softmax wEnv.exp [2, 1, 1]).length) ∧
      order.Sorted (fun i j =>
        (softmax wEnv.exp [2, 1, 1]).getD j 0 ≤
          (softmax wEnv.exp [2, 1, 1]).getD i 0) ∧
      handler wEnv wG wEvent = .ok ((order.take 5).map fun i =>
        ⟨wG.labels.getD i "", round4 ((softmax wEnv.exp [2, 1, 1]).getD i 0)⟩) :=
  handler_top5_selection wEnv wG wEvent "aGVsbG8=" [137, 80] () [2, 1, 1]
    rfl rfl rfl rfl rfl

/-- Witness for C2: a concrete successful invocation returns 3 ≤ 5 results. -/
theorem handler_output_length_le_five_witness :
    ([⟨"cat", 1/2⟩, ⟨"dog", 1/4⟩, ⟨"bird", 1/4⟩] : List LabelScore).length ≤ 5 :=
  handler_output_length_le_five wHandlerEval

/-- Witness for C3: the concrete result list is sorted by descending score. -/
theorem handler_scores_sorted_desc_witness :
    ([⟨"cat", 1/2⟩, ⟨"dog", 1/4⟩, ⟨"bird", 1/4⟩] : List LabelScore).Pairwise
      (fun a b => b.score ≤ a.score) :=
  handler_scores_sorted_desc wHandlerEval

/-- Witness for C4: the top score of the concrete invocation is in `[0, 1]`. -/
theorem handler_scores_in_unit_interval_witness :
    0 ≤ (LabelScore.mk "cat" (1/2)).score ∧ (LabelScore.mk "cat" (1/2)).score ≤ 1 :=
  handler_scores_in_unit_interval wHandlerEval ⟨"cat", 1/2⟩
    (List.mem_cons_self _ _)

/-- Witness for the amended C5 at the concrete invocation:
`1/2 + 1/4 + 1/4 ≤ 1.00025`. -/
theorem handler_scores_sum_le_one_plus_rounding_witness :
    (([⟨"cat", 1/2⟩, ⟨"dog", 1/4⟩, ⟨"bird", 1/4⟩] : List LabelScore).map
      LabelScore.score).sum ≤ 1 + 1/4000 :=
  handler_scores_sum_le_one_plus_rounding wHandlerEval

/-- Witness for C6: a request missing the `"input"` key yields the error
object, not a crash. -/
theorem handler_catches_all_errors_witness :
    handler wEnv wG ⟨none⟩ = .error "KeyError: input" :=
  (handler_catches_all_errors wEnv wG ⟨none⟩).1 "KeyError: input" rfl

/-- Witness for C7: the concrete valid request is classified successfully. -/
theorem handler_accepts_valid_request_witness :
    ∃ results, handler wEnv wG ⟨some ⟨some "aGVsbG8="⟩⟩ = .ok results :=
  handler_accepts_valid_request wEnv wG "aGVsbG8=" [137, 80] () [2, 1, 1]
    rfl rfl rfl rfl

/-- Witness for C9: a labels file consisting of the single line `"cat"`. -/
theorem labels_nonempty_witness :
    loadLabels ["cat"] ≠ [] ∧
      ((runEvents wEnv (coldStart wEnv ["cat"]) []).1).labels ≠ [] :=
  labels_nonempty wEnv ["cat"] [] ⟨"cat", by decide, by decide⟩

/-- Witness for C10 at the concrete invocation. -/
theorem handler_scores_are_rounded_probs_witness :
    (∃ (s : String) (bytes : List ℕ) (img : Unit) (logits : List ℚ),
      getImageB64 wEvent = .ok s ∧
      wEnv.b64decode s = .ok bytes ∧
      wEnv.imageOpenRGB bytes = .ok img ∧
      wEnv.modelLogits wG.model wG.processor img
        (wG.labels.map fun label => "a photo of " ++ label) = .ok logits ∧
      ∀ r ∈ ([⟨"cat", 1/2⟩, ⟨"dog", 1/4⟩, ⟨"bird", 1/4⟩] : List LabelScore),
        ∃ p ∈ softmax wEnv.exp logits, r.score = round4 p) ∧
    (∃ p q : ℚ, p ≠ q ∧ |p - q| < 1/20000 ∧ round4 p = round4 q) :=
  handler_scores_are_rounded_probs wHandlerEval

end RunpodWorker
